import Mathlib

/-
Verification of the shiny-command-line formatter (src/index.ts).

The development shallowly embeds the classifier (`parseCommand`), the layout
engine (`prettifyCommand`), the decision helper (`shouldPrettifyCommand`) and
the preview helper (`getCommandPreview`).  The external shell tokenizer
(the npm package shell-quote) is a black box to this repository, so it is
abstracted: its successful output is a list of `Tok` values (plain words and
control operators) and its failure is the `Except.error` case; functions that
call it in the source take the tokenizer's result as an extra argument.  The
terminal styling facility (chalk) is likewise abstracted as a highlighting
function `hl : CommandPart → String` passed to the layout engine; the source's
`applyHighlighting` is an instance of it.
-/

/-- Semantic category of a classified part: the source's union type
`"command" | "argument" | "operator"`. -/
inductive PartType where
  | command
  | argument
  | operator
deriving DecidableEq, Repr, Inhabited

/-- The source's `CommandPart` record.  The optional boolean fields
`isLongOption?` / `isShortOption?` default to `false`, matching the
falsiness of `undefined` in the source. -/
structure CommandPart where
  type : PartType
  value : String
  isLongOption : Bool := false
  isShortOption : Bool := false
deriving DecidableEq, Repr, Inhabited

/-- One token produced by the external shell tokenizer: a plain word
(a `string` entry of shell-quote's output) or a control operator
(an `{ op: string }` entry). -/
inductive Tok where
  | word (s : String)
  | op (s : String)
deriving DecidableEq, Repr, Inhabited

/-- The string carried by a token. -/
def Tok.str : Tok → String
  | .word s => s
  | .op s => s

/-- The source's `PrettifyOptions`, with the default values that the
destructuring in `prettifyCommand` supplies for omitted fields. -/
structure PrettifyOptions where
  maxWidth : Nat := 80
  indent : String := "  "
  flagsOnNewLine : Bool := false
  disableColors : Bool := false
deriving DecidableEq, Repr, Inhabited

/-- The source's `PreviewOptions` with its defaults. -/
structure PreviewOptions where
  showPretty : Bool := false
  maxWidth : Nat := 80
  indent : String := "  "
  flagsOnNewLine : Bool := false
  disableColors : Bool := false
deriving DecidableEq, Repr, Inhabited

/-- The source's `CommandPreview` record; the optionally-absent `pretty`
field becomes an `Option`. -/
structure CommandPreview where
  original : String
  pretty : Option String
  shouldPrettify : Bool
deriving DecidableEq, Repr

/-- True when the string starts with two dashes: `part.startsWith("--")`. -/
def startsDashDash (s : String) : Bool :=
  match s.data with
  | c1 :: c2 :: _ => c1 == '-' && c2 == '-'
  | _ => false

/-- True when the string starts with a dash: `part.startsWith("-")`. -/
def startsDash (s : String) : Bool :=
  match s.data with
  | c :: _ => c == '-'
  | _ => false

/-- True when the string matches the source's regular expression test
for a leading dash followed by a decimal digit (`part.match(/^-\d/)`). -/
def startsWithDashDigit (s : String) : Bool :=
  match s.data with
  | c1 :: c2 :: _ => c1 == '-' && c2.isDigit
  | _ => false

/-- Truthiness of `currentLine.trim()` in the source: the string holds at
least one non-whitespace character. -/
def hasVisible (s : String) : Bool :=
  s.data.any (fun c => !c.isWhitespace)

/-- The source's `result.join("\n")`. -/
def joinLines : List String → String
  | [] => ""
  | [l] => l
  | l :: ls => l ++ "\n" ++ joinLines ls

/-- The body of the source's `parseCommand` loop (src/index.ts lines 39-59):
`parts` is the accumulated prefix, and each token appends exactly one part.
A word starting with `--` is a long-option argument; a word starting with
`-`, of length over one, and not matching `/^-\d/` is a short-option
argument; any other word is the command head when `parts.length === 0 ||
parts.every((p) => p.type === "operator")` and an argument otherwise.
An operator token becomes an operator part. -/
def parseCommandAux (parts : List CommandPart) : List Tok → List CommandPart
  | [] => parts
  | Tok.word s :: rest =>
    let newPart : CommandPart :=
      if startsDashDash s then
        { type := PartType.argument, value := s, isLongOption := true }
      else if startsDash s ∧ 1 < s.length ∧ startsWithDashDigit s = false then
        { type := PartType.argument, value := s, isShortOption := true }
      else if parts.isEmpty || parts.all (fun p => p.type == PartType.operator) then
        { type := PartType.command, value := s }
      else
        { type := PartType.argument, value := s }
    parseCommandAux (parts ++ [newPart]) rest
  | Tok.op s :: rest =>
    parseCommandAux (parts ++ [{ type := PartType.operator, value := s }]) rest

/-- The source's `parseCommand`, applied to the tokenizer's output. -/
def parseCommand (ts : List Tok) : List CommandPart :=
  parseCommandAux [] ts

/-- Classification of a single word token; `isCmd` records whether every part
accumulated so far is an operator. -/
def wordPart (isCmd : Bool) (s : String) : CommandPart :=
  if startsDashDash s then
    { type := PartType.argument, value := s, isLongOption := true }
  else if startsDash s ∧ 1 < s.length ∧ startsWithDashDigit s = false then
    { type := PartType.argument, value := s, isShortOption := true }
  else if isCmd then
    { type := PartType.command, value := s }
  else
    { type := PartType.argument, value := s }

/-- Accumulator-free form of the classifier: the flag carries "all parts so
far are operators". -/
def parseGo (g : Bool) : List Tok → List CommandPart
  | [] => []
  | Tok.word s :: rest => wordPart g s :: parseGo false rest
  | Tok.op s :: rest => { type := PartType.operator, value := s } :: parseGo g rest

/-- A word is plain (neither long-option shaped nor short-option shaped). -/
def plainWord (s : String) : Bool :=
  !startsDashDash s &&
    !(startsDash s && decide (1 < s.length) && !startsWithDashDigit s)

theorem wordPart_type_ne_operator (g : Bool) (s : String) :
    (wordPart g s).type ≠ PartType.operator := by
  unfold wordPart
  split
  · simp
  · split
    · simp
    · split <;> simp

theorem wordPart_type_command_iff (g : Bool) (s : String) :
    (wordPart g s).type = PartType.command ↔ plainWord s = true ∧ g = true := by
  by_cases h1 : startsDashDash s = true <;>
    by_cases h2 : startsDash s = true <;>
      by_cases h3 : 1 < s.length <;>
        by_cases h4 : startsWithDashDigit s = true <;>
          cases g <;>
            simp_all [wordPart, plainWord] <;>
              rw [if_neg (by omega)] <;> simp_all

theorem wordPart_value (g : Bool) (s : String) : (wordPart g s).value = s := by
  unfold wordPart
  split
  · rfl
  · split
    · rfl
    · split <;> rfl

theorem isEmpty_or_all (parts : List CommandPart) :
    (parts.isEmpty || parts.all (fun p => p.type == PartType.operator)) =
      parts.all (fun p => p.type == PartType.operator) := by
  cases parts <;> simp

theorem parseCommandAux_eq_go (ts : List Tok) :
    ∀ parts, parseCommandAux parts ts =
      parts ++ parseGo (parts.all (fun p => p.type == PartType.operator)) ts := by
  induction ts with
  | nil => intro parts; simp [parseCommandAux, parseGo]
  | cons t rest ih =>
    intro parts
    cases t with
    | word s =>
      have hnew : parseCommandAux parts (Tok.word s :: rest) =
          parseCommandAux
            (parts ++ [wordPart (parts.all (fun p => p.type == PartType.operator)) s])
            rest := by
        simp only [parseCommandAux, wordPart, isEmpty_or_all]
      rw [hnew, ih]
      have hall : ((parts ++ [wordPart (parts.all (fun p => p.type == PartType.operator)) s]).all
            (fun p => p.type == PartType.operator)) = false := by
        rw [List.all_append]
        have := wordPart_type_ne_operator
          (parts.all (fun p => p.type == PartType.operator)) s
        simp [this]
      rw [hall]
      simp [parseGo]
    | op s =>
      have hnew : parseCommandAux parts (Tok.op s :: rest) =
          parseCommandAux (parts ++ [{ type := PartType.operator, value := s }]) rest := by
        simp [parseCommandAux]
      rw [hnew, ih]
      have hall : ((parts ++ [({ type := PartType.operator, value := s } : CommandPart)]).all
            (fun p => p.type == PartType.operator)) =
          parts.all (fun p => p.type == PartType.operator) := by
        rw [List.all_append]
        simp
      rw [hall]
      simp [parseGo]

theorem parseCommand_eq_go (ts : List Tok) : parseCommand ts = parseGo true ts := by
  have h := parseCommandAux_eq_go ts []
  simpa [parseCommand] using h

theorem parseGo_length (ts : List Tok) : ∀ g, (parseGo g ts).length = ts.length := by
  induction ts with
  | nil => intro g; rfl
  | cons t rest ih => intro g; cases t <;> simp [parseGo, ih]

theorem parseCommand_length (ts : List Tok) : (parseCommand ts).length = ts.length := by
  rw [parseCommand_eq_go]; exact parseGo_length ts true

theorem startsDashDash_dashDigit (s : String) (h : startsDashDash s = true) :
    startsWithDashDigit s = false := by
  cases hd : s.data with
  | nil => simp [startsDashDash, hd] at h
  | cons c1 t =>
    cases t with
    | nil => simp [startsDashDash, hd] at h
    | cons c2 t2 =>
      simp only [startsDashDash, hd] at h
      simp only [startsWithDashDigit, hd]
      simp only [Bool.and_eq_true, beq_iff_eq] at h
      rcases h with ⟨h1, h2⟩
      subst h1
      subst h2
      rfl

theorem parseGo_op_iff (ts : List Tok) :
    ∀ g i, i < ts.length →
      (((parseGo g ts).getD i default).type = PartType.operator ↔
        ∃ o, ts.getD i default = Tok.op o) := by
  induction ts with
  | nil => intro g i h; simp at h
  | cons t rest ih =>
    intro g i h
    cases i with
    | zero =>
      cases t with
      | word s =>
        have := wordPart_type_ne_operator g s
        simp [parseGo, this]
      | op s => simp [parseGo]
    | succ i =>
      cases t with
      | word s =>
        simp only [parseGo, List.getD_cons_succ]
        exact ih false i (by simpa using h)
      | op s =>
        simp only [parseGo, List.getD_cons_succ]
        exact ih g i (by simpa using h)

theorem parseGo_command_iff (ts : List Tok) :
    ∀ g i, i < ts.length →
      (((parseGo g ts).getD i default).type = PartType.command ↔
        (g = true ∧ (∃ s, ts.getD i default = Tok.word s ∧ plainWord s = true) ∧
          ∀ j, j < i → ∃ o, ts.getD j default = Tok.op o)) := by
  induction ts with
  | nil => intro g i h; simp at h
  | cons t rest ih =>
    intro g i h
    cases i with
    | zero =>
      cases t with
      | word s =>
        simp only [parseGo, List.getD_cons_zero]
        rw [wordPart_type_command_iff]
        constructor
        · rintro ⟨hp, hg⟩
          exact ⟨hg, ⟨s, rfl, hp⟩, by intro j hj; omega⟩
        · rintro ⟨hg, ⟨s', hs', hp⟩, -⟩
          injection hs' with hss
          subst hss
          exact ⟨hp, hg⟩
      | op s =>
        simp [parseGo]
    | succ i =>
      cases t with
      | word s =>
        simp only [parseGo, List.getD_cons_succ]
        rw [ih false i (by simpa using h)]
        constructor
        · rintro ⟨hfalse, -⟩
          exact absurd hfalse (by simp)
        · rintro ⟨hg, hw, hops⟩
          exfalso
          obtain ⟨o, ho⟩ := hops 0 (Nat.succ_pos i)
          simp at ho
      | op s =>
        simp only [parseGo, List.getD_cons_succ]
        rw [ih g i (by simpa using h)]
        constructor
        · rintro ⟨hg, hw, hops⟩
          refine ⟨hg, by simpa using hw, ?_⟩
          intro j hj
          cases j with
          | zero => exact ⟨s, by simp⟩
          | succ j => simpa using hops j (by omega)
        · rintro ⟨hg, hw, hops⟩
          refine ⟨hg, by simpa using hw, ?_⟩
          intro j hj
          have hop := hops (j + 1) (by omega)
          simpa using hop

theorem parseGo_dashDigit (ts : List Tok) :
    ∀ g p, p ∈ parseGo g ts → startsWithDashDigit p.value = true →
      p.isShortOption = false ∧ p.isLongOption = false := by
  induction ts with
  | nil => intro g p hp; simp [parseGo] at hp
  | cons t rest ih =>
    intro g p hp hd
    cases t with
    | word s =>
      simp only [parseGo, List.mem_cons] at hp
      rcases hp with hp | hp
      · subst hp
        rw [wordPart_value] at hd
        unfold wordPart
        by_cases h1 : startsDashDash s = true
        · rw [startsDashDash_dashDigit s h1] at hd
          cases hd
        · by_cases h2 : startsDash s = true ∧ 1 < s.length ∧ startsWithDashDigit s = false
          · rcases h2 with ⟨-, -, hc⟩
            rw [hd] at hc
            cases hc
          · rw [if_neg h1, if_neg h2]
            split <;> exact ⟨rfl, rfl⟩
      · exact ih false p hp hd
    | op s =>
      simp only [parseGo, List.mem_cons] at hp
      rcases hp with hp | hp
      · subst hp
        exact ⟨rfl, rfl⟩
      · exact ih g p hp hd

/-- The rendered text of a part inside the layout loop:
`!disableColors ? applyHighlighting(part) : part.value`, with the chalk-backed
`applyHighlighting` abstracted as `hl`. -/
def renderPart (hl : CommandPart → String) (disableColors : Bool)
    (part : CommandPart) : String :=
  if disableColors then part.value else hl part

/-- Placement of an argument (src/index.ts lines 172-194): in
flags-on-new-line mode a flag breaks the line when the current line has
visible content; otherwise the width rule breaks when appending a space and
the value would exceed `maxWidth` and the current line is non-empty. -/
def placeArg (maxWidth : Nat) (indentStr : String) (flagsOnNewLine isFlag : Bool)
    (partValue : String) (result : List String) (currentLine : String) :
    List String × String :=
  let argWithSpace := " " ++ partValue
  if flagsOnNewLine && isFlag then
    if hasVisible currentLine then
      (result ++ [currentLine ++ " \\"], indentStr ++ partValue)
    else
      (result, currentLine ++ argWithSpace)
  else
    if maxWidth < currentLine.length + argWithSpace.length ∧ 0 < currentLine.length then
      (result ++ [currentLine ++ " \\"], indentStr ++ partValue)
    else
      (result, currentLine ++ argWithSpace)

/-- One iteration of the layout loop of `prettifyCommand` (src/index.ts lines
148-218), over the emitted lines (`result`) and the line being built
(`currentLine`); the returned boolean records whether the look-ahead consumed
the following part (the source's `i++`).  A command part replaces the current
line; the operators `&&`, `||`, `|` are appended after a space and break the
line, `;` is appended without a space and breaks the line, any other operator
is appended after a space without a break.  An argument is placed by the
flags-on-new-line rule or the width rule, and a long option followed by a
plain argument may consume that argument early when keeping the pair together
would overflow `maxWidth`. -/
def layoutStep (hl : CommandPart → String) (maxWidth : Nat) (indentStr : String)
    (flagsOnNewLine disableColors : Bool) (part : CommandPart)
    (rest : List CommandPart) (result : List String) (currentLine : String) :
    (List String × String) × Bool :=
  let partValue := renderPart hl disableColors part
  match part.type with
  | PartType.command => ((result, partValue), false)
  | PartType.operator =>
    if part.value = "&&" ∨ part.value = "||" ∨ part.value = "|" then
      ((result ++ [currentLine ++ " " ++ partValue], ""), false)
    else if part.value = ";" then
      ((result ++ [currentLine ++ partValue], ""), false)
    else
      ((result, currentLine ++ " " ++ partValue), false)
  | PartType.argument =>
    let placed := placeArg maxWidth indentStr flagsOnNewLine
      (part.isLongOption || part.isShortOption) partValue result currentLine
    if part.isLongOption && !flagsOnNewLine then
      match rest with
      | [] => (placed, false)
      | next :: _ =>
        if next.type = PartType.argument ∧ next.isLongOption = false ∧
            next.isShortOption = false then
          let nextValue := renderPart hl disableColors next
          let nextArgWithSpace := " " ++ nextValue
          if maxWidth < placed.2.length + nextArgWithSpace.length then
            ((placed.1 ++ [placed.2 ++ " \\"], indentStr ++ nextValue), true)
          else
            (placed, false)
        else
          (placed, false)
    else
      (placed, false)

/-- The loop itself: one `layoutStep` per iteration; when the step consumed
the following part (the source's `i++`) the recursion skips it. -/
def layoutLoop (hl : CommandPart → String) (maxWidth : Nat) (indentStr : String)
    (flagsOnNewLine disableColors : Bool) :
    List CommandPart → List String → String → List String × String
  | [], result, currentLine => (result, currentLine)
  | part :: rest, result, currentLine =>
    let s := layoutStep hl maxWidth indentStr flagsOnNewLine disableColors
      part rest result currentLine
    match rest with
    | [] =>
      layoutLoop hl maxWidth indentStr flagsOnNewLine disableColors [] s.1.1 s.1.2
    | next :: rest2 =>
      if s.2 then
        layoutLoop hl maxWidth indentStr flagsOnNewLine disableColors rest2 s.1.1 s.1.2
      else
        layoutLoop hl maxWidth indentStr flagsOnNewLine disableColors (next :: rest2)
          s.1.1 s.1.2
termination_by ps _ _ => ps.length
decreasing_by all_goals (simp_wf <;> omega)

/-- The tail of the layout (src/index.ts lines 220-224): push a non-empty
final line and join everything with newlines. -/
def finishLines : List String × String → String
  | (result, currentLine) =>
    joinLines (if currentLine ≠ "" then result ++ [currentLine] else result)

/-- The source's `prettifyCommand`.  The abstract tokenizer result stands for
`parse(command)` inside the `try` block: a tokenizer exception is the
`Except.error` case, handled by the source's `catch` which returns the
original command.  After classification, an empty part list or a command no
longer than `maxWidth` also returns the original command; otherwise the
layout loop runs. -/
def prettifyCommand (hl : CommandPart → String) (command : String)
    (toks : Except Unit (List Tok)) (options : PrettifyOptions := {}) : String :=
  match toks with
  | .error _ => command
  | .ok ts =>
    if (parseCommand ts).length = 0 then command
    else if command.length ≤ options.maxWidth then command
    else
      finishLines (layoutLoop hl options.maxWidth options.indent
        options.flagsOnNewLine options.disableColors (parseCommand ts) [] "")

/-- True when `p` is a prefix of the second list (character comparison). -/
def leadsWith : List Char → List Char → Bool
  | [], _ => true
  | _ :: _, [] => false
  | p :: ps, c :: cs => p == c && leadsWith ps cs

/-- Scan of the haystack for an occurrence of the pattern. -/
def includesAux (pat : List Char) : List Char → Bool
  | [] => leadsWith pat []
  | c :: rest => leadsWith pat (c :: rest) || includesAux pat rest

/-- JavaScript `command.includes(pat)`: substring containment. -/
def strIncludes (s pat : String) : Bool :=
  includesAux pat.data s.data

/-- Substring containment as a proposition: the haystack splits around the
pattern. -/
def ContainsSub (s pat : String) : Prop :=
  ∃ l r, s.data = l ++ pat.data ++ r

/-- A word character of the JavaScript regex class backslash-w:
ASCII letter, decimal digit, or underscore. -/
def isWordChar (c : Char) : Bool :=
  c.isAlpha || c.isDigit || c == '_'

theorem dropWhile_length_le (p : Char → Bool) (l : List Char) :
    (l.dropWhile p).length ≤ l.length := by
  induction l with
  | nil => simp [List.dropWhile]
  | cons c rest ih =>
    rw [List.dropWhile_cons]
    split
    · exact le_trans ih (by simp)
    · simp

/-- The number of matches that the source's global regex match on
`command` counts in `shouldPrettifyCommand`: occurrences of two dashes
followed by one or more word characters, scanned left to right,
non-overlapping, with a greedy run of word characters. -/
def countDashDashAux : Nat → List Char → Nat
  | 0, _ => 0
  | fuel + 1, l =>
    match l with
    | c1 :: c2 :: c3 :: rest =>
      if c1 == '-' && c2 == '-' && isWordChar c3 then
        countDashDashAux fuel (rest.dropWhile isWordChar) + 1
      else
        countDashDashAux fuel (c2 :: c3 :: rest)
    | _ :: rest => countDashDashAux fuel rest
    | [] => 0

/-- Entry point of the scan; every step consumes at least one character, so a
fuel equal to the input length never runs out. -/
def countDashDash (l : List Char) : Nat :=
  countDashDashAux l.length l

/-- The source's `shouldPrettifyCommand` (src/index.ts lines 247-259). -/
def shouldPrettifyCommand (command : String) (threshold : Nat := 80) : Bool :=
  decide (threshold < command.length) ||
    strIncludes command "&&" ||
    strIncludes command "||" ||
    strIncludes command ";" ||
    strIncludes command "|" ||
    decide (3 < countDashDash command.data)

/-- The source's `getCommandPreview` (src/index.ts lines 278-304): the
decision helper is consulted with `maxWidth` as the threshold, and the
`pretty` field is filled only when both `showPretty` and the decision hold. -/
def getCommandPreview (hl : CommandPart → String) (command : String)
    (toks : Except Unit (List Tok)) (options : PreviewOptions := {}) : CommandPreview :=
  let sp := shouldPrettifyCommand command options.maxWidth
  { original := command
    pretty :=
      if options.showPretty && sp then
        some (prettifyCommand hl command toks
          { maxWidth := options.maxWidth, indent := options.indent,
            flagsOnNewLine := options.flagsOnNewLine,
            disableColors := options.disableColors })
      else none
    shouldPrettify := sp }

theorem layoutLoop_nil (hl : CommandPart → String) (mw : Nat) (ind : String)
    (fnl dc : Bool) (res : List String) (cur : String) :
    layoutLoop hl mw ind fnl dc [] res cur = (res, cur) := by
  rw [layoutLoop.eq_def]

theorem layoutLoop_cons_of_not_consumed (hl : CommandPart → String) (mw : Nat)
    (ind : String) (fnl dc : Bool) (part : CommandPart) (rest : List CommandPart)
    (res : List String) (cur : String)
    (h : (layoutStep hl mw ind fnl dc part rest res cur).2 = false) :
    layoutLoop hl mw ind fnl dc (part :: rest) res cur =
      layoutLoop hl mw ind fnl dc rest
        (layoutStep hl mw ind fnl dc part rest res cur).1.1
        (layoutStep hl mw ind fnl dc part rest res cur).1.2 := by
  cases rest with
  | nil => rw [layoutLoop.eq_def]
  | cons next rest2 =>
    rw [layoutLoop.eq_def]
    simp only [h, Bool.false_eq_true, if_false]

theorem layoutLoop_cons_of_consumed (hl : CommandPart → String) (mw : Nat)
    (ind : String) (fnl dc : Bool) (part next : CommandPart)
    (rest2 : List CommandPart) (res : List String) (cur : String)
    (h : (layoutStep hl mw ind fnl dc part (next :: rest2) res cur).2 = true) :
    layoutLoop hl mw ind fnl dc (part :: next :: rest2) res cur =
      layoutLoop hl mw ind fnl dc rest2
        (layoutStep hl mw ind fnl dc part (next :: rest2) res cur).1.1
        (layoutStep hl mw ind fnl dc part (next :: rest2) res cur).1.2 := by
  rw [layoutLoop.eq_def]
  simp only [h, if_true]

theorem layoutStep_command (hl : CommandPart → String) (mw : Nat) (ind : String)
    (fnl dc : Bool) (part : CommandPart) (rest : List CommandPart)
    (res : List String) (cur : String) (hcmd : part.type = PartType.command) :
    layoutStep hl mw ind fnl dc part rest res cur =
      ((res, renderPart hl dc part), false) := by
  obtain ⟨t, v, lo, so⟩ := part
  simp only at hcmd
  subst hcmd
  simp [layoutStep]

theorem layoutStep_break_op (hl : CommandPart → String) (mw : Nat) (ind : String)
    (fnl dc : Bool) (part : CommandPart) (rest : List CommandPart)
    (res : List String) (cur : String) (hop : part.type = PartType.operator)
    (hv : part.value = "&&" ∨ part.value = "||" ∨ part.value = "|") :
    layoutStep hl mw ind fnl dc part rest res cur =
      ((res ++ [cur ++ " " ++ renderPart hl dc part], ""), false) := by
  obtain ⟨t, v, lo, so⟩ := part
  simp only at hop hv
  subst hop
  simp only [layoutStep]
  rw [if_pos hv]

theorem layoutStep_semicolon (hl : CommandPart → String) (mw : Nat) (ind : String)
    (fnl dc : Bool) (part : CommandPart) (rest : List CommandPart)
    (res : List String) (cur : String) (hop : part.type = PartType.operator)
    (hv : part.value = ";") :
    layoutStep hl mw ind fnl dc part rest res cur =
      ((res ++ [cur ++ renderPart hl dc part], ""), false) := by
  obtain ⟨t, v, lo, so⟩ := part
  simp only at hop hv
  subst hop
  subst hv
  simp only [layoutStep]
  rw [if_neg (by simp)]
  simp

theorem layoutStep_other_op (hl : CommandPart → String) (mw : Nat) (ind : String)
    (fnl dc : Bool) (part : CommandPart) (rest : List CommandPart)
    (res : List String) (cur : String) (hop : part.type = PartType.operator)
    (h1 : part.value ≠ "&&") (h2 : part.value ≠ "||") (h3 : part.value ≠ "|")
    (h4 : part.value ≠ ";") :
    layoutStep hl mw ind fnl dc part rest res cur =
      ((res, cur ++ " " ++ renderPart hl dc part), false) := by
  obtain ⟨t, v, lo, so⟩ := part
  simp only at hop h1 h2 h3 h4
  subst hop
  simp only [layoutStep]
  rw [if_neg (by simp [h1, h2, h3]), if_neg h4]

theorem layoutStep_flag_newline (hl : CommandPart → String) (mw : Nat)
    (ind : String) (dc : Bool) (part : CommandPart) (rest : List CommandPart)
    (res : List String) (cur : String) (harg : part.type = PartType.argument)
    (hflag : (part.isLongOption || part.isShortOption) = true)
    (hvis : hasVisible cur = true) :
    layoutStep hl mw ind true dc part rest res cur =
      ((res ++ [cur ++ " \\"], ind ++ renderPart hl dc part), false) := by
  obtain ⟨t, v, lo, so⟩ := part
  simp only at harg hflag
  subst harg
  simp [layoutStep, placeArg, hflag, hvis]

/-- C1: for every command string, tokenizer outcome, and configuration, if the
length of the command does not exceed the configuration's `maxWidth`
(default 80), then `prettifyCommand` returns the command unchanged. -/
theorem c1_short_command_identity (hl : CommandPart → String) (command : String)
    (toks : Except Unit (List Tok)) (options : PrettifyOptions)
    (h : command.length ≤ options.maxWidth) :
    prettifyCommand hl command toks options = command := by
  cases toks with
  | error e => rfl
  | ok ts =>
    simp only [prettifyCommand]
    by_cases hp : (parseCommand ts).length = 0
    · rw [if_pos hp]
    · rw [if_neg hp, if_pos h]

theorem c1_short_command_identity_witness :
    "ls -la".length ≤ ({} : PrettifyOptions).maxWidth ∧
      prettifyCommand (fun p => p.value) "ls -la"
        (Except.ok [Tok.word "ls", Tok.word "-la"]) {} = "ls -la" :=
  ⟨by decide,
    c1_short_command_identity (fun p => p.value) "ls -la"
      (Except.ok [Tok.word "ls", Tok.word "-la"]) {} (by decide)⟩

/-- C4: whenever the tokenizer raises an error (for instance on unbalanced
quotes), `prettifyCommand` returns the original command string unchanged; the
error is never propagated. -/
theorem c4_tokenizer_error_returns_original (hl : CommandPart → String)
    (command : String) (options : PrettifyOptions) :
    prettifyCommand hl command (Except.error ()) options = command := rfl

/-- C10: when tokenization succeeds but classification yields zero parts, the
command is returned unchanged, also when its length exceeds `maxWidth`. -/
theorem c10_empty_parts_identity (hl : CommandPart → String) (command : String)
    (ts : List Tok) (options : PrettifyOptions) (h : parseCommand ts = []) :
    prettifyCommand hl command (Except.ok ts) options = command := by
  simp only [prettifyCommand]
  rw [if_pos (by simp [h])]

theorem c10_empty_parts_identity_witness :
    ({} : PrettifyOptions).maxWidth <
        (String.mk (List.replicate 100 'a')).length ∧
      prettifyCommand (fun p => p.value) (String.mk (List.replicate 100 'a'))
        (Except.ok []) {} = String.mk (List.replicate 100 'a') :=
  ⟨by decide,
    c10_empty_parts_identity (fun p => p.value)
      (String.mk (List.replicate 100 'a')) [] {} rfl⟩

/-- C5: during layout, an operator part with value `&&`, `||`, or `|` is
appended to the current line after a single space, the line is emitted to the
output and the current line resets to empty; the value `;` is appended with no
separating space before the line is emitted and reset; any other operator
value is appended after a space and the line is not broken. -/
theorem c5_operator_layout (hl : CommandPart → String) (mw : Nat) (ind : String)
    (fnl dc : Bool) (part : CommandPart) (rest : List CommandPart)
    (res : List String) (cur : String) (hop : part.type = PartType.operator) :
    ((part.value = "&&" ∨ part.value = "||" ∨ part.value = "|") →
      layoutLoop hl mw ind fnl dc (part :: rest) res cur =
        layoutLoop hl mw ind fnl dc rest
          (res ++ [cur ++ " " ++ renderPart hl dc part]) "") ∧
    (part.value = ";" →
      layoutLoop hl mw ind fnl dc (part :: rest) res cur =
        layoutLoop hl mw ind fnl dc rest
          (res ++ [cur ++ renderPart hl dc part]) "") ∧
    (part.value ≠ "&&" → part.value ≠ "||" → part.value ≠ "|" →
      part.value ≠ ";" →
      layoutLoop hl mw ind fnl dc (part :: rest) res cur =
        layoutLoop hl mw ind fnl dc rest res
          (cur ++ " " ++ renderPart hl dc part)) := by
  refine ⟨?_, ?_, ?_⟩
  · intro hv
    have hs := layoutStep_break_op hl mw ind fnl dc part rest res cur hop hv
    rw [layoutLoop_cons_of_not_consumed hl mw ind fnl dc part rest res cur
      (by rw [hs])]
    rw [hs]
  · intro hv
    have hs := layoutStep_semicolon hl mw ind fnl dc part rest res cur hop hv
    rw [layoutLoop_cons_of_not_consumed hl mw ind fnl dc part rest res cur
      (by rw [hs])]
    rw [hs]
  · intro h1 h2 h3 h4
    have hs := layoutStep_other_op hl mw ind fnl dc part rest res cur hop h1 h2 h3 h4
    rw [layoutLoop_cons_of_not_consumed hl mw ind fnl dc part rest res cur
      (by rw [hs])]
    rw [hs]

theorem c5_operator_layout_witness :
    (layoutLoop (fun p => p.value) 80 "  " false false
        [{ type := PartType.operator, value := "&&" }] [] "a" = (["a &&"], "")) ∧
    (layoutLoop (fun p => p.value) 80 "  " false false
        [{ type := PartType.operator, value := ";" }] [] "a" = (["a;"], "")) ∧
    (layoutLoop (fun p => p.value) 80 "  " false false
        [{ type := PartType.operator, value := "&" }] [] "a" = ([], "a &")) := by
  refine ⟨?_, ?_, ?_⟩
  · rw [(c5_operator_layout (fun p => p.value) 80 "  " false false
      { type := PartType.operator, value := "&&" } [] [] "a" rfl).1 (Or.inl rfl)]
    rw [layoutLoop_nil]
    rfl
  · rw [(c5_operator_layout (fun p => p.value) 80 "  " false false
      { type := PartType.operator, value := ";" } [] [] "a" rfl).2.1 rfl]
    rw [layoutLoop_nil]
    rfl
  · rw [(c5_operator_layout (fun p => p.value) 80 "  " false false
      { type := PartType.operator, value := "&" } [] [] "a" rfl).2.2
      (by decide) (by decide) (by decide) (by decide)]
    rw [layoutLoop_nil]
    rfl

/-- C2 counterexample: for the token sequence of the command `a && b`, the
part right after the operator is a non-Operator part of kind Argument, not
Command, contradicting the claimed reset of the command head after each
operator. -/
theorem c2_counterexample_after_operator :
    ((parseCommand [Tok.word "a", Tok.op "&&", Tok.word "b"]).getD 1 default).type
        = PartType.operator ∧
    ((parseCommand [Tok.word "a", Tok.op "&&", Tok.word "b"]).getD 2 default).type
        = PartType.argument ∧
    ¬((parseCommand [Tok.word "a", Tok.op "&&", Tok.word "b"]).getD 2 default).type
        = PartType.command := by
  decide

/-- C2 (amended): in the classified sequence, a part has kind Command exactly
when its token is a plain word (not long-option shaped and not short-option
shaped) and every earlier token is an operator; so the first non-Operator part
is Command only when it is such a plain word, every later non-Operator part is
an Argument, and no reset to Command happens after an operator that follows a
non-Operator part.  A part has kind Operator exactly when its token is an
operator token. -/
theorem c2_command_head_characterization (ts : List Tok) (i : Nat)
    (h : i < ts.length) :
    (((parseCommand ts).getD i default).type = PartType.command ↔
      ((∃ s, ts.getD i default = Tok.word s ∧ plainWord s = true) ∧
        ∀ j, j < i → ∃ o, ts.getD j default = Tok.op o)) ∧
    (((parseCommand ts).getD i default).type = PartType.operator ↔
      ∃ o, ts.getD i default = Tok.op o) := by
  rw [parseCommand_eq_go]
  refine ⟨?_, parseGo_op_iff ts true i h⟩
  rw [parseGo_command_iff ts true i h]
  simp

theorem c2_command_head_characterization_witness :
    ((((parseCommand [Tok.word "a", Tok.op "&&", Tok.word "b"]).getD 0
          default).type = PartType.command ↔
      ((∃ s, ([Tok.word "a", Tok.op "&&", Tok.word "b"].getD 0 default)
            = Tok.word s ∧ plainWord s = true) ∧
        ∀ j, j < 0 →
          ∃ o, ([Tok.word "a", Tok.op "&&", Tok.word "b"].getD j default)
            = Tok.op o)) ∧
      (((parseCommand [Tok.word "a", Tok.op "&&", Tok.word "b"]).getD 0
          default).type = PartType.operator ↔
        ∃ o, ([Tok.word "a", Tok.op "&&", Tok.word "b"].getD 0 default)
          = Tok.op o)) :=
  c2_command_head_characterization [Tok.word "a", Tok.op "&&", Tok.word "b"] 0
    (by decide)

/-- C9: a token beginning with a single dash immediately followed by a digit
is never classified as a short option, and not as a long option either: it is
a plain part. -/
theorem c9_dash_digit_not_flag (ts : List Tok) (p : CommandPart)
    (hp : p ∈ parseCommand ts) (hd : startsWithDashDigit p.value = true) :
    p.isShortOption = false ∧ p.isLongOption = false := by
  rw [parseCommand_eq_go] at hp
  exact parseGo_dashDigit ts true p hp hd

theorem c9_dash_digit_not_flag_witness :
    ({ type := PartType.command, value := "-5" } : CommandPart).isShortOption
        = false ∧
      ({ type := PartType.command, value := "-5" } : CommandPart).isLongOption
        = false :=
  c9_dash_digit_not_flag [Tok.word "-5"]
    { type := PartType.command, value := "-5" } (by decide) (by decide)

theorem leadsWith_iff (p : List Char) : ∀ l, leadsWith p l = true ↔ ∃ r, l = p ++ r := by
  induction p with
  | nil => intro l; simp [leadsWith]
  | cons c p ih =>
    intro l
    cases l with
    | nil =>
      simp [leadsWith]
    | cons d l2 =>
      simp only [leadsWith, Bool.and_eq_true, beq_iff_eq]
      rw [ih l2]
      constructor
      · rintro ⟨hcd, r, hr⟩
        subst hcd
        exact ⟨r, by rw [hr]; rfl⟩
      · rintro ⟨r, hr⟩
        injection hr with h1 h2
        exact ⟨h1.symm, r, h2⟩

theorem includesAux_iff (pat : List Char) :
    ∀ hay, includesAux pat hay = true ↔ ∃ l r, hay = l ++ pat ++ r := by
  intro hay
  induction hay with
  | nil =>
    rw [show includesAux pat [] = leadsWith pat [] from rfl, leadsWith_iff]
    constructor
    · rintro ⟨r, hr⟩
      exact ⟨[], r, by simpa using hr⟩
    · rintro ⟨l, r, hr⟩
      obtain ⟨hlp, hr0⟩ := List.append_eq_nil.mp hr.symm
      obtain ⟨hl0, hp0⟩ := List.append_eq_nil.mp hlp
      exact ⟨r, by simp [hp0, hr0]⟩
  | cons c rest ih =>
    simp only [includesAux, Bool.or_eq_true]
    rw [leadsWith_iff, ih]
    constructor
    · rintro (⟨r, hr⟩ | ⟨l, r, hr⟩)
      · exact ⟨[], r, by simpa using hr⟩
      · exact ⟨c :: l, r, by simp [hr]⟩
    · rintro ⟨l, r, hr⟩
      cases l with
      | nil => exact Or.inl ⟨r, by simpa using hr⟩
      | cons d l2 =>
        right
        injection hr with h1 h2
        exact ⟨l2, r, h2⟩

theorem strIncludes_iff (s pat : String) :
    strIncludes s pat = true ↔ ContainsSub s pat :=
  includesAux_iff pat.data s.data

/-- C3: the decision helper is true exactly when the command's length exceeds
the threshold, or the command contains one of the literal substrings `&&`,
`||`, `;`, `|`, or the number of matches of the long-option pattern (two
dashes then one or more word characters) exceeds 3; and the four concrete
examples behave as stated. -/
theorem c3_should_prettify_characterization :
    (∀ (c : String) (t : Nat),
      shouldPrettifyCommand c t = true ↔
        (t < c.length ∨ ContainsSub c "&&" ∨ ContainsSub c "||" ∨
          ContainsSub c ";" ∨ ContainsSub c "|" ∨
          3 < countDashDash c.data)) ∧
    shouldPrettifyCommand "ls -la" = false ∧
    shouldPrettifyCommand "npm run build && npm run test" = true ∧
    shouldPrettifyCommand "cmd --a --b --c --d" = true ∧
    shouldPrettifyCommand "cmd --a --b --c" = false := by
  refine ⟨?_, by decide, by decide, by decide, by decide⟩
  intro c t
  unfold shouldPrettifyCommand
  simp only [Bool.or_eq_true, decide_eq_true_eq, strIncludes_iff]
  tauto

/-- C8: the preview returns the original string unchanged, the decision
helper's boolean (consulted with `maxWidth` as threshold), and the `pretty`
field holds the layout engine's output exactly when both the caller's
`showPretty` flag and the decision are true, and is absent otherwise. -/
theorem c8_preview_composition (hl : CommandPart → String) (command : String)
    (toks : Except Unit (List Tok)) (options : PreviewOptions) :
    (getCommandPreview hl command toks options).original = command ∧
    (getCommandPreview hl command toks options).shouldPrettify =
      shouldPrettifyCommand command options.maxWidth ∧
    ((getCommandPreview hl command toks options).pretty =
        some (prettifyCommand hl command toks
          { maxWidth := options.maxWidth, indent := options.indent,
            flagsOnNewLine := options.flagsOnNewLine,
            disableColors := options.disableColors }) ↔
      (options.showPretty = true ∧
        shouldPrettifyCommand command options.maxWidth = true)) ∧
    (¬(options.showPretty = true ∧
        shouldPrettifyCommand command options.maxWidth = true) →
      (getCommandPreview hl command toks options).pretty = none) := by
  by_cases h : (options.showPretty && shouldPrettifyCommand command options.maxWidth) = true
  · have hand := Bool.and_eq_true_iff.mp h
    refine ⟨rfl, rfl, ?_, ?_⟩
    · simp [getCommandPreview, h, hand]
    · intro hcontra
      exact absurd hand hcontra
  · have hand : ¬(options.showPretty = true ∧
        shouldPrettifyCommand command options.maxWidth = true) := by
      intro hc
      exact h (Bool.and_eq_true_iff.mpr hc)
    refine ⟨rfl, rfl, ?_, fun _ => ?_⟩
    · simp only [getCommandPreview, h, if_false]
      constructor
      · intro hc
        cases hc
      · intro hc
        exact absurd hc hand
    · simp [getCommandPreview, h]

theorem c3_should_prettify_characterization_witness :
    (shouldPrettifyCommand "ls -la" 80 = true ↔
      (80 < "ls -la".length ∨ ContainsSub "ls -la" "&&" ∨
        ContainsSub "ls -la" "||" ∨ ContainsSub "ls -la" ";" ∨
        ContainsSub "ls -la" "|" ∨ 3 < countDashDash "ls -la".data)) ∧
    shouldPrettifyCommand "ls -la" = false :=
  ⟨c3_should_prettify_characterization.1 "ls -la" 80,
    c3_should_prettify_characterization.2.1⟩

theorem c8_preview_composition_witness :
    (getCommandPreview (fun p => p.value) "ls" (Except.ok []) {}).original
        = "ls" ∧
    (getCommandPreview (fun p => p.value) "ls" (Except.ok []) {}).shouldPrettify
        = shouldPrettifyCommand "ls" ({} : PreviewOptions).maxWidth ∧
    (getCommandPreview (fun p => p.value) "ls" (Except.ok []) {}).pretty
        = none := by
  obtain ⟨h1, h2, h3, h4⟩ :=
    c8_preview_composition (fun p => p.value) "ls" (Except.ok []) {}
  exact ⟨h1, h2, h4 (by decide)⟩

/-- The emitted lines of a flags-on-new-line run: one line per flag except the
last, each closed by the continuation marker. -/
def flagTail (rend' : CommandPart → String) (ind : String) :
    List CommandPart → String → List String
  | [], _ => []
  | f :: fs, cur => (cur ++ " \\") :: flagTail rend' ind fs (ind ++ rend' f)

/-- The line still being built after a flags-on-new-line run. -/
def flagLastLine (rend' : CommandPart → String) (ind : String) :
    List CommandPart → String → String
  | [], cur => cur
  | f :: fs, _ => flagLastLine rend' ind fs (ind ++ rend' f)

/-- All lines of a flags-on-new-line run, the final one included. -/
def flagBlock (rend' : CommandPart → String) (ind : String)
    (fs : List CommandPart) (cur : String) : List String :=
  flagTail rend' ind fs cur ++ [flagLastLine rend' ind fs cur]

theorem flagBlock_cons (rend' : CommandPart → String) (ind : String)
    (f : CommandPart) (fs : List CommandPart) (cur : String) :
    flagBlock rend' ind (f :: fs) cur =
      (cur ++ " \\") :: flagBlock rend' ind fs (ind ++ rend' f) := by
  simp [flagBlock, flagTail, flagLastLine]

theorem flagBlock_length (rend' : CommandPart → String) (ind : String) :
    ∀ (fs : List CommandPart) (cur : String),
      (flagBlock rend' ind fs cur).length = fs.length + 1 := by
  intro fs
  induction fs with
  | nil => intro cur; rfl
  | cons f fs ih =>
    intro cur
    rw [flagBlock_cons]
    simp [ih]

theorem flagBlock_getD (rend' : CommandPart → String) (ind : String) :
    ∀ (fs : List CommandPart) (cur : String) (i : Nat), i < fs.length →
      ((flagBlock rend' ind fs cur).getD (i + 1) ""
          = ind ++ rend' (fs.getD i default) ++ " \\" ∨
        (flagBlock rend' ind fs cur).getD (i + 1) ""
          = ind ++ rend' (fs.getD i default)) ∧
      ∃ pre, (flagBlock rend' ind fs cur).getD i "" = pre ++ " \\" := by
  intro fs
  induction fs with
  | nil => intro cur i h; simp at h
  | cons f fs ih =>
    intro cur i h
    cases i with
    | zero =>
      constructor
      · rw [flagBlock_cons, List.getD_cons_succ]
        cases fs with
        | nil =>
          right
          simp [flagBlock, flagTail, flagLastLine]
        | cons g gs =>
          left
          rw [flagBlock_cons]
          simp
      · rw [flagBlock_cons]
        exact ⟨cur, by simp⟩
    | succ i =>
      have h2 : i < fs.length := by simpa using h
      obtain ⟨ha, hb⟩ := ih (ind ++ rend' f) i h2
      constructor
      · rw [flagBlock_cons, List.getD_cons_succ]
        simpa using ha
      · rw [flagBlock_cons, List.getD_cons_succ]
        exact hb

theorem hasVisible_ne_empty (s : String) (h : hasVisible s = true) : s ≠ "" := by
  intro he
  subst he
  simp [hasVisible] at h

theorem flagLastLine_mem (rend' : CommandPart → String) (ind : String) :
    ∀ (fs : List CommandPart) (cur : String), fs ≠ [] →
      ∃ f ∈ fs, flagLastLine rend' ind fs cur = ind ++ rend' f := by
  intro fs
  induction fs with
  | nil => intro cur h; exact absurd rfl h
  | cons f fs ih =>
    intro cur _
    cases fs with
    | nil => exact ⟨f, by simp, rfl⟩
    | cons g gs =>
      obtain ⟨x, hx, he⟩ := ih (ind ++ rend' f) (by simp)
      exact ⟨x, by simp [hx], he⟩

theorem layoutLoop_cons_command (hl : CommandPart → String) (mw : Nat)
    (ind : String) (fnl dc : Bool) (part : CommandPart)
    (rest : List CommandPart) (res : List String) (cur : String)
    (hcmd : part.type = PartType.command) :
    layoutLoop hl mw ind fnl dc (part :: rest) res cur =
      layoutLoop hl mw ind fnl dc rest res (renderPart hl dc part) := by
  have hs := layoutStep_command hl mw ind fnl dc part rest res cur hcmd
  rw [layoutLoop_cons_of_not_consumed hl mw ind fnl dc part rest res cur
    (by rw [hs])]
  rw [hs]

theorem layoutLoop_flags (hl : CommandPart → String) (mw : Nat) (ind : String)
    (dc : Bool) :
    ∀ (fs : List CommandPart) (res : List String) (cur : String),
      (∀ f ∈ fs, f.type = PartType.argument ∧
        (f.isLongOption || f.isShortOption) = true) →
      hasVisible cur = true →
      (∀ f ∈ fs, hasVisible (ind ++ renderPart hl dc f) = true) →
      layoutLoop hl mw ind true dc fs res cur =
        (res ++ flagTail (renderPart hl dc) ind fs cur,
          flagLastLine (renderPart hl dc) ind fs cur) := by
  intro fs
  induction fs with
  | nil =>
    intro res cur _ _ _
    rw [layoutLoop_nil]
    simp [flagTail, flagLastLine]
  | cons f fs ih =>
    intro res cur hflags hvis hindvis
    obtain ⟨harg, hflag⟩ := hflags f (by simp)
    have hs := layoutStep_flag_newline hl mw ind dc f fs res cur harg hflag hvis
    rw [layoutLoop_cons_of_not_consumed hl mw ind true dc f fs res cur
      (by rw [hs])]
    rw [hs]
    rw [ih (res ++ [cur ++ " \\"]) (ind ++ renderPart hl dc f)
      (fun g hg => hflags g (by simp [hg]))
      (hindvis f (by simp))
      (fun g hg => hindvis g (by simp [hg]))]
    simp [flagTail, flagLastLine]

/-- C6: on a flag-heavy command (a command head followed by long or short
options only) that is longer than `maxWidth`, with `flagsOnNewLine` set, the
output is exactly the head line followed by one line per option; every option
line is the configured indent followed by the option's rendered value
(closed by the continuation marker except on the last line), and the line
preceding each option line ends with the continuation marker, a space
followed by a single backslash. -/
theorem c6_flags_on_new_line (hl : CommandPart → String) (command : String)
    (ts : List Tok) (options : PrettifyOptions) (cmdPart : CommandPart)
    (flags : List CommandPart)
    (hfnl : options.flagsOnNewLine = true)
    (hparse : parseCommand ts = cmdPart :: flags)
    (hne : flags ≠ [])
    (hcmd : cmdPart.type = PartType.command)
    (hflags : ∀ f ∈ flags, f.type = PartType.argument ∧
      (f.isLongOption || f.isShortOption) = true)
    (hlen : options.maxWidth < command.length)
    (hviscmd : hasVisible (renderPart hl options.disableColors cmdPart) = true)
    (hvisflags : ∀ f ∈ flags,
      hasVisible (options.indent ++ renderPart hl options.disableColors f) = true) :
    prettifyCommand hl command (Except.ok ts) options =
      joinLines (flagBlock (renderPart hl options.disableColors) options.indent
        flags (renderPart hl options.disableColors cmdPart)) ∧
    (flagBlock (renderPart hl options.disableColors) options.indent flags
        (renderPart hl options.disableColors cmdPart)).length
      = flags.length + 1 ∧
    ∀ i, i < flags.length →
      (((flagBlock (renderPart hl options.disableColors) options.indent flags
            (renderPart hl options.disableColors cmdPart)).getD (i + 1) ""
          = options.indent
            ++ renderPart hl options.disableColors (flags.getD i default)
            ++ " \\" ∨
        (flagBlock (renderPart hl options.disableColors) options.indent flags
            (renderPart hl options.disableColors cmdPart)).getD (i + 1) ""
          = options.indent
            ++ renderPart hl options.disableColors (flags.getD i default)) ∧
       ∃ pre, (flagBlock (renderPart hl options.disableColors) options.indent
          flags (renderPart hl options.disableColors cmdPart)).getD i ""
            = pre ++ " \\") := by
  refine ⟨?_, flagBlock_length (renderPart hl options.disableColors)
      options.indent flags (renderPart hl options.disableColors cmdPart),
    fun i h => flagBlock_getD (renderPart hl options.disableColors)
      options.indent flags (renderPart hl options.disableColors cmdPart) i h⟩
  simp only [prettifyCommand]
  rw [if_neg (by simp [hparse]), if_neg (by omega), hparse, hfnl]
  rw [layoutLoop_cons_command hl options.maxWidth options.indent true
    options.disableColors cmdPart flags [] "" hcmd]
  rw [layoutLoop_flags hl options.maxWidth options.indent options.disableColors
    flags [] (renderPart hl options.disableColors cmdPart)
    hflags hviscmd hvisflags]
  simp only [finishLines, List.nil_append]
  rw [if_pos ?lastNonEmpty]
  · rfl
  case lastNonEmpty =>
    obtain ⟨f, hf, he⟩ := flagLastLine_mem (renderPart hl options.disableColors)
      options.indent flags (renderPart hl options.disableColors cmdPart) hne
    rw [he]
    exact hasVisible_ne_empty _ (hvisflags f hf)

theorem c6_flags_on_new_line_witness :
    prettifyCommand (fun p => p.value) "docker --verbose --interactive"
        (Except.ok [Tok.word "docker", Tok.word "--verbose",
          Tok.word "--interactive"])
        { maxWidth := 5, indent := "  ", flagsOnNewLine := true,
          disableColors := true } =
      "docker \\\n  --verbose \\\n  --interactive" := by
  have h := (c6_flags_on_new_line (fun p => p.value)
    "docker --verbose --interactive"
    [Tok.word "docker", Tok.word "--verbose", Tok.word "--interactive"]
    { maxWidth := 5, indent := "  ", flagsOnNewLine := true,
      disableColors := true }
    { type := PartType.command, value := "docker" }
    [{ type := PartType.argument, value := "--verbose", isLongOption := true },
      { type := PartType.argument, value := "--interactive",
        isLongOption := true }]
    rfl (by decide) (by decide) rfl (by decide) (by decide) (by decide)
    (by decide)).1
  rw [h]
  decide

theorem strData_append (a b : String) : (a ++ b).data = a.data ++ b.data := by
  cases a
  cases b
  rfl

theorem chars_append {A : Char → Prop} {a b : String}
    (ha : ∀ c ∈ a.data, A c) (hb : ∀ c ∈ b.data, A c) :
    ∀ c ∈ (a ++ b).data, A c := by
  intro c hc
  rw [strData_append] at hc
  rcases List.mem_append.mp hc with h | h
  · exact ha c h
  · exact hb c h

theorem chars_empty {A : Char → Prop} : ∀ c ∈ ("" : String).data, A c := by
  intro c hc
  cases hc

theorem chars_space {A : Char → Prop} (hsp : A ' ') :
    ∀ c ∈ (" " : String).data, A c := by
  intro c hc
  have : (" " : String).data = [' '] := rfl
  rw [this] at hc
  rcases List.mem_singleton.mp hc with rfl
  exact hsp

theorem chars_marker {A : Char → Prop} (hsp : A ' ') (hbs : A '\\') :
    ∀ c ∈ (" \\" : String).data, A c := by
  intro c hc
  have : (" \\" : String).data = [' ', '\\'] := rfl
  rw [this] at hc
  rcases List.mem_cons.mp hc with rfl | hc2
  · exact hsp
  · rcases List.mem_singleton.mp hc2 with rfl
    exact hbs

theorem chars_lines_append {A : Char → Prop} {res : List String} {l : String}
    (hres : ∀ x ∈ res, ∀ c ∈ x.data, A c) (hln : ∀ c ∈ l.data, A c) :
    ∀ x ∈ res ++ [l], ∀ c ∈ x.data, A c := by
  intro x hx
  rcases List.mem_append.mp hx with h | h
  · exact hres x h
  · rcases List.mem_singleton.mp h with rfl
    exact hln

theorem placeArg_chars (mw : Nat) (ind : String) (fnl isFlag : Bool)
    (pv : String) (res : List String) (cur : String) (A : Char → Prop)
    (hsp : A ' ') (hbs : A '\\') (hind : ∀ c ∈ ind.data, A c)
    (hpv : ∀ c ∈ pv.data, A c)
    (hres : ∀ x ∈ res, ∀ c ∈ x.data, A c) (hcur : ∀ c ∈ cur.data, A c) :
    (∀ x ∈ (placeArg mw ind fnl isFlag pv res cur).1, ∀ c ∈ x.data, A c) ∧
    (∀ c ∈ (placeArg mw ind fnl isFlag pv res cur).2.data, A c) := by
  unfold placeArg
  dsimp only
  split
  · split
    · exact ⟨chars_lines_append hres (chars_append hcur (chars_marker hsp hbs)),
        chars_append hind hpv⟩
    · exact ⟨hres, chars_append hcur (chars_append (chars_space hsp) hpv)⟩
  · split
    · exact ⟨chars_lines_append hres (chars_append hcur (chars_marker hsp hbs)),
        chars_append hind hpv⟩
    · exact ⟨hres, chars_append hcur (chars_append (chars_space hsp) hpv)⟩

theorem layoutStep_chars (hl : CommandPart → String) (mw : Nat) (ind : String)
    (fnl dc : Bool) (part : CommandPart) (rest : List CommandPart)
    (res : List String) (cur : String) (A : Char → Prop)
    (hsp : A ' ') (hbs : A '\\') (hind : ∀ c ∈ ind.data, A c)
    (hpart : ∀ c ∈ (renderPart hl dc part).data, A c)
    (hrest : ∀ q ∈ rest, ∀ c ∈ (renderPart hl dc q).data, A c)
    (hres : ∀ x ∈ res, ∀ c ∈ x.data, A c) (hcur : ∀ c ∈ cur.data, A c) :
    (∀ x ∈ (layoutStep hl mw ind fnl dc part rest res cur).1.1,
      ∀ c ∈ x.data, A c) ∧
    (∀ c ∈ (layoutStep hl mw ind fnl dc part rest res cur).1.2.data, A c) := by
  obtain ⟨t, v, lo, so⟩ := part
  cases t with
  | command =>
    rw [layoutStep_command hl mw ind fnl dc _ rest res cur rfl]
    exact ⟨hres, hpart⟩
  | operator =>
    by_cases h1 : v = "&&" ∨ v = "||" ∨ v = "|"
    · rw [layoutStep_break_op hl mw ind fnl dc _ rest res cur rfl h1]
      exact ⟨chars_lines_append hres
        (chars_append (chars_append hcur (chars_space hsp)) hpart), chars_empty⟩
    · by_cases h2 : v = ";"
      · rw [layoutStep_semicolon hl mw ind fnl dc _ rest res cur rfl h2]
        exact ⟨chars_lines_append hres (chars_append hcur hpart), chars_empty⟩
      · rw [layoutStep_other_op hl mw ind fnl dc _ rest res cur rfl
          (fun h => h1 (Or.inl h)) (fun h => h1 (Or.inr (Or.inl h)))
          (fun h => h1 (Or.inr (Or.inr h))) h2]
        exact ⟨hres, chars_append (chars_append hcur (chars_space hsp)) hpart⟩
  | argument =>
    have hplaced := placeArg_chars mw ind fnl (lo || so)
      (renderPart hl dc ⟨PartType.argument, v, lo, so⟩) res cur A hsp hbs hind
      hpart hres hcur
    simp only [layoutStep]
    split
    · split
      · exact hplaced
      · split
        · split
          · refine ⟨chars_lines_append hplaced.1
              (chars_append hplaced.2 (chars_marker hsp hbs)), ?_⟩
            exact chars_append hind (hrest _ (by simp))
          · exact hplaced
        · exact hplaced
    · exact hplaced

theorem layoutLoop_cons_nil (hl : CommandPart → String) (mw : Nat)
    (ind : String) (fnl dc : Bool) (part : CommandPart) (res : List String)
    (cur : String) :
    layoutLoop hl mw ind fnl dc [part] res cur =
      ((layoutStep hl mw ind fnl dc part [] res cur).1.1,
        (layoutStep hl mw ind fnl dc part [] res cur).1.2) := by
  rw [layoutLoop.eq_def]
  dsimp only
  rw [layoutLoop_nil]

theorem layoutLoop_chars (hl : CommandPart → String) (mw : Nat) (ind : String)
    (fnl dc : Bool) (A : Char → Prop)
    (hsp : A ' ') (hbs : A '\\') (hind : ∀ c ∈ ind.data, A c) :
    ∀ (n : Nat) (ps : List CommandPart) (res : List String) (cur : String),
      ps.length ≤ n →
      (∀ q ∈ ps, ∀ c ∈ (renderPart hl dc q).data, A c) →
      (∀ x ∈ res, ∀ c ∈ x.data, A c) →
      (∀ c ∈ cur.data, A c) →
      (∀ x ∈ (layoutLoop hl mw ind fnl dc ps res cur).1, ∀ c ∈ x.data, A c) ∧
      (∀ c ∈ (layoutLoop hl mw ind fnl dc ps res cur).2.data, A c) := by
  intro n
  induction n with
  | zero =>
    intro ps res cur hlen hps hres hcur
    have hnil : ps = [] := List.length_eq_zero.mp (Nat.le_zero.mp hlen)
    subst hnil
    rw [layoutLoop_nil]
    exact ⟨hres, hcur⟩
  | succ n ih =>
    intro ps res cur hlen hps hres hcur
    cases ps with
    | nil =>
      rw [layoutLoop_nil]
      exact ⟨hres, hcur⟩
    | cons part rest =>
      have hstep := layoutStep_chars hl mw ind fnl dc part rest res cur A hsp
        hbs hind (hps part (by simp)) (fun q hq => hps q (by simp [hq]))
        hres hcur
      cases rest with
      | nil =>
        rw [layoutLoop_cons_nil]
        exact ⟨hstep.1, hstep.2⟩
      | cons next rest2 =>
        by_cases hcons :
            (layoutStep hl mw ind fnl dc part (next :: rest2) res cur).2 = true
        · rw [layoutLoop_cons_of_consumed hl mw ind fnl dc part next rest2
            res cur hcons]
          exact ih rest2 _ _ (by simp at hlen ⊢; omega)
            (fun q hq => hps q (by simp [hq])) hstep.1 hstep.2
        · have hcons2 := eq_false_of_ne_true hcons
          rw [layoutLoop_cons_of_not_consumed hl mw ind fnl dc part
            (next :: rest2) res cur hcons2]
          exact ih (next :: rest2) _ _ (by simp at hlen ⊢; omega)
            (fun q hq => hps q (by simp [hq])) hstep.1 hstep.2

theorem parseGo_value (ts : List Tok) :
    ∀ g p, p ∈ parseGo g ts → ∃ t ∈ ts, p.value = t.str := by
  induction ts with
  | nil => intro g p hp; simp [parseGo] at hp
  | cons t rest ih =>
    intro g p hp
    cases t with
    | word s =>
      rcases List.mem_cons.mp hp with rfl | hp2
      · refine ⟨Tok.word s, by simp, ?_⟩
        rw [wordPart_value]
        rfl
      · obtain ⟨t2, ht2, hv⟩ := ih false p hp2
        exact ⟨t2, by simp [ht2], hv⟩
    | op s =>
      rcases List.mem_cons.mp hp with rfl | hp2
      · exact ⟨Tok.op s, by simp, rfl⟩
      · obtain ⟨t2, ht2, hv⟩ := ih g p hp2
        exact ⟨t2, by simp [ht2], hv⟩

theorem joinLines_chars {A : Char → Prop} (hnl : A '\n') :
    ∀ (L : List String), (∀ x ∈ L, ∀ c ∈ x.data, A c) →
      ∀ c ∈ (joinLines L).data, A c := by
  intro L
  induction L with
  | nil => intro _ c hc; cases hc
  | cons l ls ih =>
    intro hL
    cases ls with
    | nil => simpa using hL l (by simp)
    | cons m ms =>
      intro c hc
      have h1 : ∀ c ∈ l.data, A c := hL l (by simp)
      have hnl2 : ∀ c ∈ ("\n" : String).data, A c := by
        intro c2 hc2
        have he : ("\n" : String).data = ['\n'] := rfl
        rw [he] at hc2
        rcases List.mem_singleton.mp hc2 with rfl
        exact hnl
      exact chars_append (chars_append h1 hnl2)
        (ih (fun x hx => hL x (by simp [hx]))) c hc

theorem finishLines_chars {A : Char → Prop} (hnl : A '\n')
    (st : List String × String)
    (hres : ∀ x ∈ st.1, ∀ c ∈ x.data, A c)
    (hcur : ∀ c ∈ st.2.data, A c) :
    ∀ c ∈ (finishLines st).data, A c := by
  obtain ⟨res, cur⟩ := st
  simp only [finishLines]
  split
  · exact joinLines_chars hnl _ (chars_lines_append hres hcur)
  · exact joinLines_chars hnl _ hres

/-- C7: with `disableColors` set, the output is built only from the tokens'
plain values, the configured indent, spaces, backslash continuation markers,
and newlines (or is the original command itself); in particular, when neither
the command, nor any token, nor the indent contains a styling (ANSI escape)
character, the output contains none, whatever the highlighting function
would do. -/
theorem c7_disable_colors_plain (hl : CommandPart → String) (command : String)
    (ts : List Tok) (options : PrettifyOptions)
    (hdc : options.disableColors = true) :
    ∀ c ∈ (prettifyCommand hl command (Except.ok ts) options).data,
      c ∈ command.data ∨ (∃ t ∈ ts, c ∈ t.str.data) ∨
        c ∈ options.indent.data ∨ c = ' ' ∨ c = '\\' ∨ c = '\n' := by
  intro c hc
  set A : Char → Prop := fun ch => ch ∈ command.data ∨
    (∃ t ∈ ts, ch ∈ t.str.data) ∨ ch ∈ options.indent.data ∨
    ch = ' ' ∨ ch = '\\' ∨ ch = '\n' with hA
  show A c
  simp only [prettifyCommand] at hc
  by_cases h0 : (parseCommand ts).length = 0
  · rw [if_pos h0] at hc
    exact Or.inl hc
  · rw [if_neg h0] at hc
    by_cases h1 : command.length ≤ options.maxWidth
    · rw [if_pos h1] at hc
      exact Or.inl hc
    · rw [if_neg h1] at hc
      have hparts : ∀ q ∈ parseCommand ts,
          ∀ ch ∈ (renderPart hl options.disableColors q).data, A ch := by
        intro q hq ch hch
        rw [hdc] at hch
        have hrq : renderPart hl true q = q.value := rfl
        rw [hrq] at hch
        rw [parseCommand_eq_go] at hq
        obtain ⟨t, ht, hv⟩ := parseGo_value ts true q hq
        rw [hv] at hch
        exact Or.inr (Or.inl ⟨t, ht, hch⟩)
      have hloop := layoutLoop_chars hl options.maxWidth options.indent
        options.flagsOnNewLine options.disableColors A
        (Or.inr (Or.inr (Or.inr (Or.inl rfl))))
        (Or.inr (Or.inr (Or.inr (Or.inr (Or.inl rfl)))))
        (fun ch hch => Or.inr (Or.inr (Or.inl hch)))
        (parseCommand ts).length (parseCommand ts) [] "" le_rfl hparts
        (by intro x hx; cases hx) chars_empty
      exact finishLines_chars
        (Or.inr (Or.inr (Or.inr (Or.inr (Or.inr rfl))))) _
        hloop.1 hloop.2 c hc

theorem c7_disable_colors_plain_witness :
    'x' ∈ "x".data ∨ (∃ t ∈ ([] : List Tok), 'x' ∈ t.str.data) ∨
      'x' ∈ (PrettifyOptions.mk 80 "  " false true).indent.data ∨
      'x' = ' ' ∨ 'x' = '\\' ∨ 'x' = '\n' :=
  c7_disable_colors_plain (fun p => p.value) "x" []
    (PrettifyOptions.mk 80 "  " false true) rfl 'x' (by decide)
